import Mathlib

/-!
Verification of the Grover circuit builder in src/grovers_algorithm.py.

Amplitudes of every circuit built by that script lie in the subring
Q2 = { a + b * sqrt 2 : a b : ℚ } of the reals: the only irrational constant
any of its gates introduces is 1 / sqrt 2 (from Hadamard), and all gate
matrices are real.  We represent such numbers computably as pairs of
rationals, so concrete circuit evaluations are decidable.

Qubit/state conventions (matching Qiskit): a circuit on nq qubits acts on
states indexed by assignments b : Fin nq → Bool (b q is the value of qubit q).
A target bit-string of the Python code maps its character at position q to
qubit q, with character 0 encoded as false and character 1 as true.

The Python functions take the qubit count as a parameter that is at least 1
in every claim; we embed them with qubit count nq = n + 1 so that the gate
indices used by the source (qubit 0 and the last qubit) always exist.
-/

structure Q2 where
  a : ℚ
  b : ℚ
deriving DecidableEq

instance : Zero Q2 := ⟨⟨0, 0⟩⟩
instance : One Q2 := ⟨⟨1, 0⟩⟩
instance : Add Q2 := ⟨fun x y => ⟨x.a + y.a, x.b + y.b⟩⟩
instance : Mul Q2 := ⟨fun x y => ⟨x.a * y.a + 2 * x.b * y.b, x.a * y.b + x.b * y.a⟩⟩
instance : Neg Q2 := ⟨fun x => ⟨-x.a, -x.b⟩⟩

instance : CommRing Q2 where
  add := (· + ·)
  add_assoc x y z := by
    show Q2.mk ((x.a + y.a) + z.a) ((x.b + y.b) + z.b) =
      Q2.mk (x.a + (y.a + z.a)) (x.b + (y.b + z.b))
    exact congrArg₂ Q2.mk (by ring) (by ring)
  zero := 0
  zero_add x := by
    show Q2.mk (0 + x.a) (0 + x.b) = Q2.mk x.a x.b
    exact congrArg₂ Q2.mk (by ring) (by ring)
  add_zero x := by
    show Q2.mk (x.a + 0) (x.b + 0) = Q2.mk x.a x.b
    exact congrArg₂ Q2.mk (by ring) (by ring)
  add_comm x y := by
    show Q2.mk (x.a + y.a) (x.b + y.b) = Q2.mk (y.a + x.a) (y.b + x.b)
    exact congrArg₂ Q2.mk (by ring) (by ring)
  mul := (· * ·)
  left_distrib x y z := by
    show Q2.mk (x.a * (y.a + z.a) + 2 * x.b * (y.b + z.b))
        (x.a * (y.b + z.b) + x.b * (y.a + z.a)) =
      Q2.mk ((x.a * y.a + 2 * x.b * y.b) + (x.a * z.a + 2 * x.b * z.b))
        ((x.a * y.b + x.b * y.a) + (x.a * z.b + x.b * z.a))
    exact congrArg₂ Q2.mk (by ring) (by ring)
  right_distrib x y z := by
    show Q2.mk ((x.a + y.a) * z.a + 2 * (x.b + y.b) * z.b)
        ((x.a + y.a) * z.b + (x.b + y.b) * z.a) =
      Q2.mk ((x.a * z.a + 2 * x.b * z.b) + (y.a * z.a + 2 * y.b * z.b))
        ((x.a * z.b + x.b * z.a) + (y.a * z.b + y.b * z.a))
    exact congrArg₂ Q2.mk (by ring) (by ring)
  zero_mul x := by
    show Q2.mk (0 * x.a + 2 * 0 * x.b) (0 * x.b + 0 * x.a) = Q2.mk 0 0
    exact congrArg₂ Q2.mk (by ring) (by ring)
  mul_zero x := by
    show Q2.mk (x.a * 0 + 2 * x.b * 0) (x.a * 0 + x.b * 0) = Q2.mk 0 0
    exact congrArg₂ Q2.mk (by ring) (by ring)
  mul_assoc x y z := by
    show Q2.mk
        ((x.a * y.a + 2 * x.b * y.b) * z.a + 2 * (x.a * y.b + x.b * y.a) * z.b)
        ((x.a * y.a + 2 * x.b * y.b) * z.b + (x.a * y.b + x.b * y.a) * z.a) =
      Q2.mk
        (x.a * (y.a * z.a + 2 * y.b * z.b) + 2 * x.b * (y.a * z.b + y.b * z.a))
        (x.a * (y.a * z.b + y.b * z.a) + x.b * (y.a * z.a + 2 * y.b * z.b))
    exact congrArg₂ Q2.mk (by ring) (by ring)
  one := 1
  one_mul x := by
    show Q2.mk (1 * x.a + 2 * 0 * x.b) (1 * x.b + 0 * x.a) = Q2.mk x.a x.b
    exact congrArg₂ Q2.mk (by ring) (by ring)
  mul_one x := by
    show Q2.mk (x.a * 1 + 2 * x.b * 0) (x.a * 0 + x.b * 1) = Q2.mk x.a x.b
    exact congrArg₂ Q2.mk (by ring) (by ring)
  neg := (- ·)
  neg_add_cancel x := by
    show Q2.mk (-x.a + x.a) (-x.b + x.b) = Q2.mk 0 0
    exact congrArg₂ Q2.mk (by ring) (by ring)
  mul_comm x y := by
    show Q2.mk (x.a * y.a + 2 * x.b * y.b) (x.a * y.b + x.b * y.a) =
      Q2.mk (y.a * x.a + 2 * y.b * x.b) (y.a * x.b + y.b * x.a)
    exact congrArg₂ Q2.mk (by ring) (by ring)
  nsmul := nsmulRec
  nsmul_zero x := rfl
  nsmul_succ n x := rfl
  zsmul := zsmulRec
  zsmul_zero' x := rfl
  zsmul_succ' n x := rfl
  zsmul_neg' n x := rfl

/-- The real number 1 / sqrt 2 = (1/2) * sqrt 2, as an element of Q2. -/
def invSqrt2 : Q2 := ⟨0, 1/2⟩

/-- The rational 1/2 as an element of Q2. -/
def halfQ : Q2 := ⟨1/2, 0⟩

/-- A statevector on nq qubits: an amplitude for each basis assignment. -/
abbrev QState (nq : ℕ) := (Fin nq → Bool) → Q2

/-- The gates emitted by the script: Hadamard, Pauli X, Pauli Z,
controlled-Z, multi-controlled X, and measurement of a qubit into a
classical bit.  These are exactly the QuantumCircuit methods it calls. -/
inductive Gate (nq : ℕ) where
  | h (q : Fin nq)
  | x (q : Fin nq)
  | z (q : Fin nq)
  | cz (c t : Fin nq)
  | mcx (controls : List (Fin nq)) (t : Fin nq)
  | measure (q c : Fin nq)
deriving DecidableEq

/-- A circuit is the ordered list of gates appended to it. -/
abbrev Circuit (nq : ℕ) := List (Gate nq)

def setBit {nq : ℕ} (q : Fin nq) (v : Bool) (b : Fin nq → Bool) : Fin nq → Bool :=
  Function.update b q v

def flipBit {nq : ℕ} (q : Fin nq) (b : Fin nq → Bool) : Fin nq → Bool :=
  Function.update b q (!(b q))

/-- Statevector semantics of one gate.  A multi-controlled X applies X to its
target when all its controls read true (with an empty control list this is
an unconditional X).  Measurement does not act on the statevector; every
claim involving measurement in this development is purely structural. -/
def applyGate {nq : ℕ} : Gate nq → QState nq → QState nq
  | Gate.h q, ψ => fun b =>
      invSqrt2 *
        (ψ (setBit q false b) +
          (if b q then -(ψ (setBit q true b)) else ψ (setBit q true b)))
  | Gate.x q, ψ => fun b => ψ (flipBit q b)
  | Gate.z q, ψ => fun b => if b q then -(ψ b) else ψ b
  | Gate.cz c t, ψ => fun b => if b c && b t then -(ψ b) else ψ b
  | Gate.mcx l t, ψ => fun b => if l.all b then ψ (flipBit t b) else ψ b
  | Gate.measure _ _, ψ => ψ

def applyCircuit {nq : ℕ} (c : Circuit nq) (ψ : QState nq) : QState nq :=
  c.foldl (fun s g => applyGate g s) ψ

/-- The basis state in which every qubit reads false. -/
def allFalseState (nq : ℕ) : QState nq :=
  fun b => if ∀ i, b i = false then 1 else 0

/-- The basis state in which every qubit reads true. -/
def allTrueState (nq : ℕ) : QState nq :=
  fun b => if ∀ i, b i = true then 1 else 0

/-- The uniform superposition with amplitude (1 / sqrt 2) ^ nq everywhere. -/
def uniformState (nq : ℕ) : QState nq :=
  fun _ => invSqrt2 ^ nq

/-- Mean of the amplitudes of a statevector on nq qubits
(the sum divided by 2 ^ nq). -/
def meanAmp {nq : ℕ} (ψ : QState nq) : Q2 :=
  halfQ ^ nq * (Finset.univ.sum fun b => ψ b)

/-! Embeddings of the circuit-building functions of the source file. -/

/-- From the source: initialize_s appends a Hadamard gate for each listed
qubit to the given circuit. -/
def initialize_s {nq : ℕ} (qc : Circuit nq) (qubits : List (Fin nq)) : Circuit nq :=
  qubits.foldl (fun acc q => acc ++ [Gate.h q]) qc

/-- The control list range(nq - 1) used by the mcx calls of the source,
for qubit count nq = n + 1: all qubits except the last. -/
def mcxControls (n : ℕ) : List (Fin (n + 1)) :=
  (List.finRange n).map Fin.castSucc

/-- The conditional phase-flip block of create_oracle, between its two
X-layers, for qubit count n + 1: cz(0,1) when the qubit count is 2,
otherwise mcx(range(nq-1), nq-1); z(nq-1); mcx(range(nq-1), nq-1). -/
def oracle_cond_step (n : ℕ) : Circuit (n + 1) :=
  if h : n = 1 then
    [Gate.cz ⟨0, by omega⟩ ⟨1, by omega⟩]
  else
    [Gate.mcx (mcxControls n) (Fin.last n), Gate.z (Fin.last n),
     Gate.mcx (mcxControls n) (Fin.last n)]

/-- The X gates create_oracle places on every qubit whose target character
is 0, in qubit order. -/
def xLayerFor {nq : ℕ} (t : Fin nq → Bool) : Circuit nq :=
  ((List.finRange nq).filter (fun q => t q = false)).map Gate.x

/-- From the source: create_oracle for a target of length n + 1. -/
def create_oracle {n : ℕ} (t : Fin (n + 1) → Bool) : Circuit (n + 1) :=
  xLayerFor t ++ oracle_cond_step n ++ xLayerFor t

/-- A Hadamard gate on every qubit, in qubit order. -/
def hLayer (nq : ℕ) : Circuit nq :=
  (List.finRange nq).map Gate.h

/-- An X gate on every qubit, in qubit order. -/
def xLayerAll (nq : ℕ) : Circuit nq :=
  (List.finRange nq).map Gate.x

/-- The multi-controlled phase-flip block of create_diffusion_operator,
between its X-layers, for qubit count n + 1: cz(0,1) when the qubit count
is 2, otherwise h(nq-1); mcx(range(nq-1), nq-1); h(nq-1). -/
def diffusion_mcz_step (n : ℕ) : Circuit (n + 1) :=
  if h : n = 1 then
    [Gate.cz ⟨0, by omega⟩ ⟨1, by omega⟩]
  else
    [Gate.h (Fin.last n), Gate.mcx (mcxControls n) (Fin.last n),
     Gate.h (Fin.last n)]

/-- From the source: create_diffusion_operator for qubit count n + 1. -/
def create_diffusion_operator (n : ℕ) : Circuit (n + 1) :=
  hLayer (n + 1) ++ xLayerAll (n + 1) ++ diffusion_mcz_step n ++
    xLayerAll (n + 1) ++ hLayer (n + 1)

/-- The final measurement of create_grovers_circuit: measure(range(nq), range(nq)). -/
def measureLayer (nq : ℕ) : Circuit nq :=
  (List.finRange nq).map (fun q => Gate.measure q q)

/-- From the source: create_grovers_circuit for qubit count n + 1.  The
iteration count is an integer, as in Python; the loop for _ in
range(num_iterations) runs num_iterations.toNat times (range of a
non-positive integer is empty) and each pass composes the oracle and then
the diffusion operator onto the circuit.  No input validation is performed
by the source. -/
def create_grovers_circuit (n : ℕ) (t : Fin (n + 1) → Bool)
    (num_iterations : ℤ) : Circuit (n + 1) :=
  let qc : Circuit (n + 1) := initialize_s [] (List.finRange (n + 1))
  let oracle := create_oracle t
  let diffusion := create_diffusion_operator n
  let qc := (List.range num_iterations.toNat).foldl
    (fun acc _ => acc ++ oracle ++ diffusion) qc
  qc ++ measureLayer (n + 1)

/-- Calling create_grovers_circuit without an explicit iteration count uses
the default value of its num_iterations parameter, which the source sets
to the literal 1. -/
def create_grovers_circuit_default (n : ℕ) (t : Fin (n + 1) → Bool) :
    Circuit (n + 1) :=
  create_grovers_circuit n t 1

/-- The exceptions the arithmetic of calculate_optimal_iterations can raise
in Python: division by zero (from N / 0) and the math domain error
(from math.sqrt of a negative number). -/
inductive PyErr where
  | zeroDivisionError
  | mathDomainError
deriving DecidableEq

/-- Python int() truncates toward zero. -/
noncomputable def pyTrunc (x : ℝ) : ℤ :=
  if 0 ≤ x then ⌊x⌋ else -⌊-x⌋

/-- From the source: calculate_optimal_iterations, with its float arithmetic
idealized over the reals.  The source computes int((pi/4) * sqrt(N / M))
with N = 2 ^ n_qubits and performs no validation of its own; the only
failures are the ZeroDivisionError raised by N / M when M = 0 and the
ValueError (math domain error) raised by math.sqrt when N / M < 0. -/
noncomputable def calculate_optimal_iterations (n_qubits : ℕ)
    (num_solutions : ℤ) : Except PyErr ℤ :=
  if num_solutions = 0 then Except.error PyErr.zeroDivisionError
  else if num_solutions < 0 then Except.error PyErr.mathDomainError
  else Except.ok (pyTrunc
    (Real.pi / 4 * Real.sqrt ((2 ^ n_qubits : ℝ) / (num_solutions : ℝ))))

/-- The state obtained from the all-false basis state by a Hadamard on every
qubit of S: uniform amplitude invSqrt2 ^ card S on the assignments that are
false outside S, and 0 elsewhere. -/
def subcubeState {nq : ℕ} (S : Finset (Fin nq)) : QState nq :=
  fun b => if ∀ i, i ∉ S → b i = false then invSqrt2 ^ S.card else 0

/-- The control qubits of a gate: cz is controlled on its first qubit, mcx on
its control list; the other gates have no controls. -/
def gateControls {nq : ℕ} : Gate nq → List (Fin nq)
  | Gate.cz c _ => [c]
  | Gate.mcx l _ => l
  | _ => []

/-- The target bit-string 101 searched for by the main demo of the source,
character index = qubit index: qubit 1 reads 0, qubits 0 and 2 read 1. -/
def t101 : Fin 3 → Bool := fun i => if i = 1 then false else true

/-! Component lemmas for Q2 arithmetic. -/

@[ext] theorem Q2.ext {x y : Q2} (ha : x.a = y.a) (hb : x.b = y.b) : x = y := by
  cases x; cases y; cases ha; cases hb; rfl

@[simp] theorem Q2.a_add (x y : Q2) : (x + y).a = x.a + y.a := rfl

@[simp] theorem Q2.b_add (x y : Q2) : (x + y).b = x.b + y.b := rfl

@[simp] theorem Q2.a_mul (x y : Q2) : (x * y).a = x.a * y.a + 2 * x.b * y.b := rfl

@[simp] theorem Q2.b_mul (x y : Q2) : (x * y).b = x.a * y.b + x.b * y.a := rfl

@[simp] theorem Q2.a_neg (x : Q2) : (-x).a = -(x.a) := rfl

@[simp] theorem Q2.b_neg (x : Q2) : (-x).b = -(x.b) := rfl

@[simp] theorem Q2.a_zero : (0 : Q2).a = 0 := rfl

@[simp] theorem Q2.b_zero : (0 : Q2).b = 0 := rfl

@[simp] theorem Q2.a_one : (1 : Q2).a = 1 := rfl

@[simp] theorem Q2.b_one : (1 : Q2).b = 0 := rfl

@[simp] theorem Q2.a_sub (x y : Q2) : (x - y).a = x.a - y.a := by
  rw [sub_eq_add_neg, Q2.a_add, Q2.a_neg]; ring

@[simp] theorem Q2.b_sub (x y : Q2) : (x - y).b = x.b - y.b := by
  rw [sub_eq_add_neg, Q2.b_add, Q2.b_neg]; ring

theorem Q2.two_val : (2 : Q2) = ⟨2, 0⟩ := by
  have h : (2 : Q2) = 1 + 1 := one_add_one_eq_two.symm
  rw [h]; ext <;> simp only [Q2.a_add, Q2.a_one, Q2.b_add, Q2.b_one] <;> norm_num

@[simp] theorem Q2.a_two : (2 : Q2).a = 2 := by rw [Q2.two_val]

@[simp] theorem Q2.b_two : (2 : Q2).b = 0 := by rw [Q2.two_val]

theorem invSqrt2_mul_self : invSqrt2 * invSqrt2 = halfQ := by
  ext <;> simp [invSqrt2, halfQ]

theorem two_mul_invSqrt2_sq : 2 * (invSqrt2 * invSqrt2) = 1 := by
  ext <;> simp [invSqrt2]

theorem invSqrt2_pow_mul_self (n : ℕ) : invSqrt2 ^ n * invSqrt2 ^ n = halfQ ^ n := by
  rw [← mul_pow, invSqrt2_mul_self]

/-! Basic lemmas about circuit application. -/

@[simp] theorem applyCircuit_nil {nq : ℕ} (ψ : QState nq) :
    applyCircuit [] ψ = ψ := rfl

@[simp] theorem applyCircuit_cons {nq : ℕ} (g : Gate nq) (c : Circuit nq) (ψ : QState nq) :
    applyCircuit (g :: c) ψ = applyCircuit c (applyGate g ψ) := rfl

theorem applyCircuit_append {nq : ℕ} (c₁ c₂ : Circuit nq) (ψ : QState nq) :
    applyCircuit (c₁ ++ c₂) ψ = applyCircuit c₂ (applyCircuit c₁ ψ) := by
  simp [applyCircuit, List.foldl_append]

/-! Bit-update lemmas. -/

@[simp] theorem setBit_at {nq : ℕ} (q : Fin nq) (v : Bool) (b : Fin nq → Bool) :
    setBit q v b q = v := by simp [setBit]

theorem setBit_ne {nq : ℕ} {q i : Fin nq} (h : i ≠ q) (v : Bool) (b : Fin nq → Bool) :
    setBit q v b i = b i := by simp [setBit, Function.update_noteq h]

@[simp] theorem setBit_setBit {nq : ℕ} (q : Fin nq) (v w : Bool) (b : Fin nq → Bool) :
    setBit q v (setBit q w b) = setBit q v b := by simp [setBit]

@[simp] theorem setBit_own {nq : ℕ} (q : Fin nq) (b : Fin nq → Bool) :
    setBit q (b q) b = b := by simp [setBit]

theorem flipBit_eq_setBit {nq : ℕ} (q : Fin nq) (b : Fin nq → Bool) :
    flipBit q b = setBit q (!(b q)) b := rfl

@[simp] theorem flipBit_at {nq : ℕ} (q : Fin nq) (b : Fin nq → Bool) :
    flipBit q b q = !(b q) := by simp [flipBit]

theorem flipBit_ne {nq : ℕ} {q i : Fin nq} (h : i ≠ q) (b : Fin nq → Bool) :
    flipBit q b i = b i := by simp [flipBit, Function.update_noteq h]

/-! Pointwise gate lemmas (definitional). -/

@[simp] theorem applyGate_h {nq : ℕ} (q : Fin nq) (ψ : QState nq) :
    applyGate (Gate.h q) ψ = fun b =>
      invSqrt2 * (ψ (setBit q false b) +
        (if b q then -(ψ (setBit q true b)) else ψ (setBit q true b))) := rfl

@[simp] theorem applyGate_x {nq : ℕ} (q : Fin nq) (ψ : QState nq) :
    applyGate (Gate.x q) ψ = fun b => ψ (flipBit q b) := rfl

@[simp] theorem applyGate_z {nq : ℕ} (q : Fin nq) (ψ : QState nq) :
    applyGate (Gate.z q) ψ = fun b => if b q then -(ψ b) else ψ b := rfl

@[simp] theorem applyGate_cz {nq : ℕ} (c t : Fin nq) (ψ : QState nq) :
    applyGate (Gate.cz c t) ψ = fun b => if b c && b t then -(ψ b) else ψ b := rfl

@[simp] theorem applyGate_mcx {nq : ℕ} (l : List (Fin nq)) (t : Fin nq) (ψ : QState nq) :
    applyGate (Gate.mcx l t) ψ = fun b => if l.all b then ψ (flipBit t b) else ψ b := rfl

@[simp] theorem applyGate_measure {nq : ℕ} (q c : Fin nq) (ψ : QState nq) :
    applyGate (Gate.measure q c) ψ = ψ := rfl


theorem setBit_comm {nq : ℕ} {q q' : Fin nq} (h : q ≠ q') (v v' : Bool)
    (b : Fin nq → Bool) :
    setBit q v (setBit q' v' b) = setBit q' v' (setBit q v b) := by
  simp only [setBit]
  exact (Function.update_comm h v v' b).symm

theorem flipBit_setBit {nq : ℕ} (q : Fin nq) (v : Bool) (b : Fin nq → Bool) :
    flipBit q (setBit q v b) = setBit q (!v) b := by
  simp [flipBit, setBit]

theorem flipBit_flipBit {nq : ℕ} (q : Fin nq) (b : Fin nq → Bool) :
    flipBit q (flipBit q b) = b := by
  simp [flipBit_eq_setBit]

theorem flipBit_comm {nq : ℕ} (q q' : Fin nq) (b : Fin nq → Bool) :
    flipBit q (flipBit q' b) = flipBit q' (flipBit q b) := by
  rcases eq_or_ne q q' with rfl | hne
  · rfl
  · funext i
    rcases eq_or_ne i q with rfl | hiq
    · simp [flipBit_ne hne]
    · rcases eq_or_ne i q' with rfl | hiq'
      · simp [flipBit_ne hne.symm]
      · simp [flipBit_ne hiq, flipBit_ne hiq']

theorem all_setBit_ne {nq : ℕ} {l : List (Fin nq)} {q : Fin nq} (h : q ∉ l)
    (v : Bool) (b : Fin nq → Bool) : l.all (setBit q v b) = l.all b := by
  induction l with
  | nil => rfl
  | cons i t ih =>
    have hiq : i ≠ q := fun he => h (he ▸ List.mem_cons_self i t)
    simp only [List.all_cons, setBit_ne hiq, ih (fun ht => h (List.mem_cons_of_mem i ht))]

theorem all_flipBit_ne {nq : ℕ} {l : List (Fin nq)} {q : Fin nq} (h : q ∉ l)
    (b : Fin nq → Bool) : l.all (flipBit q b) = l.all b := by
  rw [flipBit_eq_setBit, all_setBit_ne h]

/-! Self-inverse gates. -/

theorem h_h_cancel {nq : ℕ} (q : Fin nq) (ψ : QState nq) :
    applyGate (Gate.h q) (applyGate (Gate.h q) ψ) = ψ := by
  funext b
  cases hb : b q
  · have he : setBit q false b = b := by rw [← hb]; exact setBit_own q b
    simp only [applyGate_h, setBit_at, setBit_setBit, he, hb,
      Bool.false_eq_true, eq_self_iff_true, if_false, if_true]
    linear_combination (ψ b) * two_mul_invSqrt2_sq
  · have he : setBit q true b = b := by rw [← hb]; exact setBit_own q b
    simp only [applyGate_h, setBit_at, setBit_setBit, he, hb,
      Bool.false_eq_true, eq_self_iff_true, if_false, if_true]
    linear_combination (ψ b) * two_mul_invSqrt2_sq

theorem x_x_cancel {nq : ℕ} (q : Fin nq) (ψ : QState nq) :
    applyGate (Gate.x q) (applyGate (Gate.x q) ψ) = ψ := by
  funext b
  simp [flipBit_flipBit]

theorem z_z_cancel {nq : ℕ} (q : Fin nq) (ψ : QState nq) :
    applyGate (Gate.z q) (applyGate (Gate.z q) ψ) = ψ := by
  funext b
  cases hb : b q <;> simp only [applyGate_z, hb] <;>
    simp [Bool.false_eq_true]

theorem cz_cz_cancel {nq : ℕ} (c t : Fin nq) (ψ : QState nq) :
    applyGate (Gate.cz c t) (applyGate (Gate.cz c t) ψ) = ψ := by
  funext b
  cases hc : b c <;> cases ht2 : b t <;> simp [hc, ht2]

theorem mcx_mcx_cancel {nq : ℕ} {l : List (Fin nq)} {t : Fin nq} (ht : t ∉ l)
    (ψ : QState nq) :
    applyGate (Gate.mcx l t) (applyGate (Gate.mcx l t) ψ) = ψ := by
  funext b
  cases hc : l.all b <;> simp only [applyGate_mcx, all_flipBit_ne ht, hc] <;>
    simp [flipBit_flipBit]

/-! Commuting gates. -/

theorem h_h_comm {nq : ℕ} (q q' : Fin nq) (ψ : QState nq) :
    applyGate (Gate.h q) (applyGate (Gate.h q') ψ) =
      applyGate (Gate.h q') (applyGate (Gate.h q) ψ) := by
  rcases eq_or_ne q q' with rfl | hne
  · rfl
  · funext b
    simp only [applyGate_h, setBit_ne hne, setBit_ne hne.symm, setBit_comm hne]
    cases hb : b q <;> cases hb' : b q' <;>
      simp only [hb, hb', Bool.false_eq_true, eq_self_iff_true, if_false,
        if_true] <;> ring

theorem x_x_comm {nq : ℕ} (q q' : Fin nq) (ψ : QState nq) :
    applyGate (Gate.x q) (applyGate (Gate.x q') ψ) =
      applyGate (Gate.x q') (applyGate (Gate.x q) ψ) := by
  funext b
  simp [flipBit_comm]

/-! Fold combinators for circuits of self-inverse, pairwise-commuting gates. -/

theorem applyGate_comm_circuit {nq : ℕ} (g : Gate nq) (l : Circuit nq)
    (hc : ∀ g' ∈ l, ∀ φ, applyGate g (applyGate g' φ) = applyGate g' (applyGate g φ))
    (ψ : QState nq) :
    applyGate g (applyCircuit l ψ) = applyCircuit l (applyGate g ψ) := by
  induction l generalizing ψ with
  | nil => rfl
  | cons a t ih =>
    simp only [applyCircuit_cons]
    rw [ih (fun g' hg' => hc g' (List.mem_cons_of_mem a hg')),
      hc a (List.mem_cons_self a t)]

theorem applyCircuit_eq_reverse {nq : ℕ} (l : Circuit nq)
    (hc : ∀ g ∈ l, ∀ g' ∈ l, ∀ φ,
      applyGate g (applyGate g' φ) = applyGate g' (applyGate g φ))
    (ψ : QState nq) :
    applyCircuit l ψ = applyCircuit l.reverse ψ := by
  induction l generalizing ψ with
  | nil => rfl
  | cons a t ih =>
    simp only [applyCircuit_cons, List.reverse_cons]
    rw [applyCircuit_append]
    have ht : ∀ g ∈ t, ∀ g' ∈ t, ∀ φ,
        applyGate g (applyGate g' φ) = applyGate g' (applyGate g φ) :=
      fun g hg g' hg' => hc g (List.mem_cons_of_mem a hg) g' (List.mem_cons_of_mem a hg')
    rw [← ih ht ψ]
    simp only [applyCircuit_cons, applyCircuit_nil]
    rw [applyGate_comm_circuit a t
      (fun g' hg' => hc a (List.mem_cons_self a t) g' (List.mem_cons_of_mem a hg'))]

theorem applyCircuit_reverse_cancel {nq : ℕ} (l : Circuit nq)
    (hinv : ∀ g ∈ l, ∀ φ, applyGate g (applyGate g φ) = φ) (ψ : QState nq) :
    applyCircuit l.reverse (applyCircuit l ψ) = ψ := by
  induction l generalizing ψ with
  | nil => rfl
  | cons a t ih =>
    simp only [applyCircuit_cons, List.reverse_cons]
    rw [applyCircuit_append,
      ih (fun g hg φ => hinv g (List.mem_cons_of_mem a hg) φ) (applyGate a ψ)]
    simp only [applyCircuit_cons, applyCircuit_nil]
    exact hinv a (List.mem_cons_self a t) ψ

theorem applyCircuit_self_cancel {nq : ℕ} (l : Circuit nq)
    (hinv : ∀ g ∈ l, ∀ φ, applyGate g (applyGate g φ) = φ)
    (hc : ∀ g ∈ l, ∀ g' ∈ l, ∀ φ,
      applyGate g (applyGate g' φ) = applyGate g' (applyGate g φ))
    (ψ : QState nq) :
    applyCircuit l (applyCircuit l ψ) = ψ := by
  rw [applyCircuit_eq_reverse l hc (applyCircuit l ψ), applyCircuit_reverse_cancel l hinv]

theorem hList_cancel {nq : ℕ} (l : List (Fin nq)) (ψ : QState nq) :
    applyCircuit (l.map Gate.h) (applyCircuit (l.map Gate.h) ψ) = ψ := by
  refine applyCircuit_self_cancel _ ?_ ?_ ψ
  · intro g hg φ
    obtain ⟨q, _, rfl⟩ := List.mem_map.mp hg
    exact h_h_cancel q φ
  · intro g hg g' hg' φ
    obtain ⟨q, _, rfl⟩ := List.mem_map.mp hg
    obtain ⟨q', _, rfl⟩ := List.mem_map.mp hg'
    exact h_h_comm q q' φ

theorem xList_cancel {nq : ℕ} (l : List (Fin nq)) (ψ : QState nq) :
    applyCircuit (l.map Gate.x) (applyCircuit (l.map Gate.x) ψ) = ψ := by
  refine applyCircuit_self_cancel _ ?_ ?_ ψ
  · intro g hg φ
    obtain ⟨q, _, rfl⟩ := List.mem_map.mp hg
    exact x_x_cancel q φ
  · intro g hg g' hg' φ
    obtain ⟨q, _, rfl⟩ := List.mem_map.mp hg
    obtain ⟨q', _, rfl⟩ := List.mem_map.mp hg'
    exact x_x_comm q q' φ

/-! Pointwise semantics of X-layers. -/

theorem xList_apply {nq : ℕ} (l : List (Fin nq)) (hl : l.Nodup) :
    ∀ ψ : QState nq, applyCircuit (l.map Gate.x) ψ =
      fun b => ψ (fun i => if i ∈ l then !(b i) else b i) := by
  induction l with
  | nil => intro ψ; funext b; simp
  | cons q t ih =>
    obtain ⟨hq, ht⟩ := List.nodup_cons.mp hl
    intro ψ
    funext b
    simp only [List.map_cons, applyCircuit_cons]
    rw [ih ht]
    simp only [applyGate_x]
    congr 1
    funext i
    rcases eq_or_ne i q with rfl | hiq
    · simp [hq]
    · simp [flipBit_ne hiq, List.mem_cons, hiq]

theorem xAll_apply {nq : ℕ} (ψ : QState nq) :
    applyCircuit (xLayerAll nq) ψ = fun b => ψ (fun i => !(b i)) := by
  rw [xLayerAll, xList_apply _ (List.nodup_finRange nq)]
  funext b
  congr 1
  funext i
  simp [List.mem_finRange]

/-! Characterization of the two conditional phase-flip blocks. -/

theorem mcxControls_not_mem_last (n : ℕ) : Fin.last n ∉ mcxControls n := by
  intro hmem
  obtain ⟨i, -, hi⟩ := List.mem_map.mp hmem
  exact absurd hi (Fin.castSucc_lt_last i).ne

theorem forall_iff_controls_last {n : ℕ} (b : Fin (n + 1) → Bool) :
    (∀ i, b i = true) ↔ ((mcxControls n).all b = true ∧ b (Fin.last n) = true) := by
  constructor
  · intro hb
    exact ⟨List.all_eq_true.mpr fun i _ => hb i, hb _⟩
  · rintro ⟨h1, h2⟩ i
    refine Fin.lastCases h2 (fun j => ?_) i
    exact List.all_eq_true.mp h1 _
      (List.mem_map_of_mem Fin.castSucc (List.mem_finRange j))

theorem h_mcx_h_sem {nq : ℕ} {l : List (Fin nq)} {t : Fin nq} (ht : t ∉ l)
    (ψ : QState nq) :
    applyCircuit [Gate.h t, Gate.mcx l t, Gate.h t] ψ =
      fun b => if l.all b && b t then -(ψ b) else ψ b := by
  funext b
  simp only [applyCircuit_cons, applyCircuit_nil, applyGate_h, applyGate_mcx,
    all_setBit_ne ht, flipBit_setBit, setBit_at, setBit_setBit]
  cases hC : l.all b
  · cases hb : b t
    · have he : setBit t false b = b := by rw [← hb]; exact setBit_own t b
      simp only [hC, hb, he, Bool.false_eq_true, Bool.false_and, eq_self_iff_true,
        if_false, if_true, Bool.not_false, Bool.not_true]
      linear_combination (ψ b) * two_mul_invSqrt2_sq
    · have he : setBit t true b = b := by rw [← hb]; exact setBit_own t b
      simp only [hC, hb, he, Bool.false_eq_true, Bool.false_and, eq_self_iff_true,
        if_false, if_true, Bool.not_false, Bool.not_true]
      linear_combination (ψ b) * two_mul_invSqrt2_sq
  · cases hb : b t
    · have he : setBit t false b = b := by rw [← hb]; exact setBit_own t b
      simp only [hC, hb, he, Bool.false_eq_true, Bool.true_and, eq_self_iff_true,
        if_false, if_true, Bool.not_false, Bool.not_true]
      linear_combination (ψ b) * two_mul_invSqrt2_sq
    · have he : setBit t true b = b := by rw [← hb]; exact setBit_own t b
      simp only [hC, hb, he, Bool.false_eq_true, Bool.true_and, eq_self_iff_true,
        if_false, if_true, Bool.not_false, Bool.not_true]
      linear_combination (-(ψ b)) * two_mul_invSqrt2_sq

theorem mcx_z_mcx_sem {nq : ℕ} {l : List (Fin nq)} {t : Fin nq} (ht : t ∉ l)
    (ψ : QState nq) :
    applyCircuit [Gate.mcx l t, Gate.z t, Gate.mcx l t] ψ =
      fun b => if l.all b
        then (if b t then ψ b else -(ψ b))
        else (if b t then -(ψ b) else ψ b) := by
  funext b
  simp only [applyCircuit_cons, applyCircuit_nil, applyGate_z, applyGate_mcx,
    all_flipBit_ne ht, flipBit_at, flipBit_flipBit]
  cases hC : l.all b <;> cases hb : b t <;>
    simp [hC, hb]

theorem diffusion_step_sem (n : ℕ) (ψ : QState (n + 1)) :
    applyCircuit (diffusion_mcz_step n) ψ =
      fun b => if ∀ i, b i = true then -(ψ b) else ψ b := by
  by_cases hn : n = 1
  · subst hn
    rw [diffusion_mcz_step, dif_pos rfl]
    funext b
    simp only [applyCircuit_cons, applyCircuit_nil, applyGate_cz]
    cases h0 : b 0 <;> cases h1 : b 1 <;>
      simp [Fin.forall_fin_two, h0, h1]
  · rw [diffusion_mcz_step, dif_neg hn,
      h_mcx_h_sem (mcxControls_not_mem_last n)]
    funext b
    simp only [Bool.and_eq_true, forall_iff_controls_last]

theorem oracle_step_sem {n : ℕ} (hn : n ≠ 1) (ψ : QState (n + 1)) :
    applyCircuit (oracle_cond_step n) ψ =
      fun b => if (mcxControls n).all b
        then (if b (Fin.last n) then ψ b else -(ψ b))
        else (if b (Fin.last n) then -(ψ b) else ψ b) := by
  rw [oracle_cond_step, dif_neg hn, mcx_z_mcx_sem (mcxControls_not_mem_last n)]

/-! Linearity of the gate semantics. -/

theorem applyGate_linear {nq : ℕ} (g : Gate nq) (ψ χ : QState nq) (k : Q2) :
    applyGate g (fun b => ψ b + k * χ b) =
      fun b => applyGate g ψ b + k * applyGate g χ b := by
  cases g with
  | h q => funext b; cases hb : b q <;> simp [hb] <;> ring
  | x q => funext b; simp
  | z q => funext b; cases hb : b q <;> simp [hb] <;> ring
  | cz c t => funext b; cases h1 : b c <;> cases h2 : b t <;> simp [h1, h2] <;> ring
  | mcx l t => funext b; cases hb : l.all b <;> simp [hb]
  | measure q c => rfl

theorem applyCircuit_linear {nq : ℕ} (c : Circuit nq) (ψ χ : QState nq) (k : Q2) :
    applyCircuit c (fun b => ψ b + k * χ b) =
      fun b => applyCircuit c ψ b + k * applyCircuit c χ b := by
  induction c generalizing ψ χ with
  | nil => rfl
  | cons g t ih =>
    simp only [applyCircuit_cons]
    rw [applyGate_linear g ψ χ k, ih]

/-! A Hadamard layer on the all-false basis state produces the uniform
superposition, one qubit at a time. -/

theorem applyH_subcube {nq : ℕ} (q : Fin nq) (S : Finset (Fin nq)) (hq : q ∉ S) :
    applyGate (Gate.h q) (subcubeState S) = subcubeState (insert q S) := by
  funext b
  have h1 : (if ∀ i, i ∉ S → (setBit q true b) i = false
      then (invSqrt2 : Q2) ^ S.card else 0) = 0 := by
    rw [if_neg]
    intro hall
    have := hall q hq
    rw [setBit_at] at this
    simp at this
  have h2 : (∀ i, i ∉ S → (setBit q false b) i = false) ↔
      (∀ i, i ∉ insert q S → b i = false) := by
    constructor
    · intro hp i hi
      have hiq : i ≠ q := fun he => hi (he ▸ Finset.mem_insert_self q S)
      have := hp i (fun hiS => hi (Finset.mem_insert_of_mem hiS))
      rwa [setBit_ne hiq] at this
    · intro hp i hiS
      rcases eq_or_ne i q with rfl | hiq
      · rw [setBit_at]
      · rw [setBit_ne hiq]
        exact hp i (fun hmem => by
          rcases Finset.mem_insert.mp hmem with he | hS
          · exact hiq he
          · exact hiS hS)
  simp only [applyGate_h, subcubeState, h1, h2,
    Finset.card_insert_of_not_mem hq]
  by_cases hp : ∀ i, i ∉ insert q S → b i = false
  · rw [if_pos hp, if_pos hp]
    cases hbq : b q <;> simp [pow_succ] <;> ring
  · rw [if_neg hp, if_neg hp]
    cases hbq : b q <;> simp

theorem hList_subcube {nq : ℕ} (t : List (Fin nq)) :
    ∀ S : Finset (Fin nq), t.Nodup → (∀ q ∈ t, q ∉ S) →
      applyCircuit (t.map Gate.h) (subcubeState S) =
        subcubeState (S ∪ t.toFinset) := by
  induction t with
  | nil => intro S _ _; simp
  | cons q r ih =>
    intro S hnd hdisj
    obtain ⟨hq, hr⟩ := List.nodup_cons.mp hnd
    simp only [List.map_cons, applyCircuit_cons]
    rw [applyH_subcube q S (hdisj q (List.mem_cons_self q r))]
    rw [ih (insert q S) hr (fun p hp => by
      intro hmem
      rcases Finset.mem_insert.mp hmem with he | hS
      · exact hq (he ▸ hp)
      · exact hdisj p (List.mem_cons_of_mem q hp) hS)]
    have hset : insert q S ∪ r.toFinset = S ∪ (q :: r).toFinset := by
      ext i
      simp only [Finset.mem_union, Finset.mem_insert, List.toFinset_cons,
        List.mem_toFinset]
      tauto
    rw [hset]

theorem subcubeState_empty {nq : ℕ} :
    subcubeState (∅ : Finset (Fin nq)) = allFalseState nq := by
  funext b
  simp [subcubeState, allFalseState]

theorem subcubeState_univ {nq : ℕ} :
    subcubeState (Finset.univ : Finset (Fin nq)) = uniformState nq := by
  funext b
  simp [subcubeState, uniformState]

theorem hAll_on_allFalse (nq : ℕ) :
    applyCircuit (hLayer nq) (allFalseState nq) = uniformState nq := by
  rw [hLayer, ← subcubeState_empty,
    hList_subcube (List.finRange nq) ∅ (List.nodup_finRange nq)
      (fun q _ => Finset.not_mem_empty q)]
  have hset : (∅ : Finset (Fin nq)) ∪ (List.finRange nq).toFinset =
      Finset.univ := by
    ext i
    simp [List.mem_finRange]
  rw [hset, subcubeState_univ]

/-! The Hadamard layer evaluated at the all-false point sums the amplitudes. -/

theorem sum_filter_split {nq : ℕ} (q : Fin nq) (r : List (Fin nq)) (hq : q ∉ r)
    (ψ : QState nq) :
    Finset.sum (Finset.filter (fun c => ∀ i, i ∉ q :: r → c i = false)
        Finset.univ) ψ =
      Finset.sum (Finset.filter (fun c => ∀ i, i ∉ r → c i = false)
        Finset.univ) ψ +
      Finset.sum (Finset.filter (fun c => ∀ i, i ∉ r → c i = false)
        Finset.univ) (fun c => ψ (setBit q true c)) := by
  rw [← Finset.sum_filter_add_sum_filter_not
    (Finset.filter (fun c => ∀ i, i ∉ q :: r → c i = false) Finset.univ)
    (fun c => c q = false) ψ]
  congr 1
  · congr 1
    ext c
    simp only [Finset.mem_filter, Finset.mem_univ, true_and, List.mem_cons]
    constructor
    · rintro ⟨h1, h2⟩ i hir
      rcases eq_or_ne i q with rfl | hiq
      · exact h2
      · exact h1 i (fun hm => by
          rcases hm with he | hr2
          · exact hiq he
          · exact hir hr2)
    · intro h
      refine ⟨fun i hm => h i (fun hir => hm (Or.inr hir)), h q hq⟩
  · have himg : Finset.filter (fun c => ¬ c q = false)
        (Finset.filter (fun c => ∀ i, i ∉ q :: r → c i = false) Finset.univ) =
        (Finset.filter (fun c => ∀ i, i ∉ r → c i = false)
          Finset.univ).image (setBit q true) := by
      ext c
      simp only [Finset.mem_filter, Finset.mem_univ, true_and, Finset.mem_image,
        List.mem_cons, Bool.not_eq_false]
      constructor
      · rintro ⟨h1, h2⟩
        refine ⟨setBit q false c, fun i hir => ?_, ?_⟩
        · rcases eq_or_ne i q with rfl | hiq
          · exact setBit_at i false c
          · rw [setBit_ne hiq]
            exact h1 i (fun hm => by
              rcases hm with he | hr2
              · exact hiq he
              · exact hir hr2)
        · funext i
          rcases eq_or_ne i q with rfl | hiq
          · rw [setBit_at, h2]
          · rw [setBit_ne hiq, setBit_ne hiq]
      · rintro ⟨d, hd, rfl⟩
        refine ⟨fun i hm => ?_, setBit_at q true d⟩
        have hiq : i ≠ q := fun he => hm (he ▸ Or.inl rfl)
        rw [setBit_ne hiq]
        exact hd i (fun hir => hm (Or.inr hir))
    rw [himg, Finset.sum_image]
    intro c1 hc1 c2 hc2 heq
    have h1 : c1 q = false := (Finset.mem_filter.mp hc1).2 q hq
    have h2 : c2 q = false := (Finset.mem_filter.mp hc2).2 q hq
    funext i
    rcases eq_or_ne i q with rfl | hiq
    · rw [h1, h2]
    · have := congrFun heq i
      rwa [setBit_ne hiq, setBit_ne hiq] at this

theorem hList_sum_zero {nq : ℕ} (t : List (Fin nq)) :
    ∀ (_ : t.Nodup) (ψ : QState nq),
      applyCircuit (t.map Gate.h) ψ (fun _ => false) =
        invSqrt2 ^ t.length *
          Finset.sum (Finset.filter (fun c => ∀ i, i ∉ t → c i = false)
            Finset.univ) ψ := by
  induction t with
  | nil =>
    intro _ ψ
    have hset : Finset.filter
        (fun c => ∀ i, i ∉ ([] : List (Fin nq)) → c i = false) Finset.univ =
        {fun _ => false} := by
      ext c
      simp [funext_iff]
    rw [hset]
    simp
  | cons q r ih =>
    intro hnd ψ
    obtain ⟨hq, hr⟩ := List.nodup_cons.mp hnd
    simp only [List.map_cons, applyCircuit_cons]
    rw [ih hr (applyGate (Gate.h q) ψ)]
    have key : Finset.sum (Finset.filter (fun c => ∀ i, i ∉ r → c i = false)
        Finset.univ) (applyGate (Gate.h q) ψ) =
        invSqrt2 * Finset.sum
          (Finset.filter (fun c => ∀ i, i ∉ q :: r → c i = false)
            Finset.univ) ψ := by
      rw [sum_filter_split q r hq ψ]
      have hstep : ∀ c ∈ Finset.filter (fun c => ∀ i, i ∉ r → c i = false)
          Finset.univ, applyGate (Gate.h q) ψ c =
            invSqrt2 * (ψ c + ψ (setBit q true c)) := by
        intro c hc
        have h0 : c q = false := (Finset.mem_filter.mp hc).2 q hq
        have he : setBit q false c = c := by rw [← h0]; exact setBit_own q c
        simp only [applyGate_h, h0, he, Bool.false_eq_true, if_false]
      rw [Finset.sum_congr rfl hstep, ← Finset.mul_sum, Finset.sum_add_distrib]
    rw [key, List.length_cons, pow_succ]
    ring

theorem hAll_at_allFalse {nq : ℕ} (ψ : QState nq) :
    applyCircuit (hLayer nq) ψ (fun _ => false) =
      invSqrt2 ^ nq * Finset.univ.sum ψ := by
  rw [hLayer, hList_sum_zero (List.finRange nq) (List.nodup_finRange nq) ψ]
  have hset : Finset.filter
      (fun c => ∀ i, i ∉ List.finRange nq → c i = false)
      (Finset.univ : Finset (Fin nq → Bool)) = Finset.univ := by
    ext c
    simp [List.mem_finRange]
  rw [hset, List.length_finRange]

theorem diffusion_apply (n : ℕ) (ψ : QState (n + 1)) :
    applyCircuit (create_diffusion_operator n) ψ =
      fun b => ψ b - 2 * meanAmp ψ := by
  rw [create_diffusion_operator, applyCircuit_append, applyCircuit_append,
    applyCircuit_append, applyCircuit_append]
  have h3 : applyCircuit (xLayerAll (n + 1))
      (applyCircuit (diffusion_mcz_step n)
        (applyCircuit (xLayerAll (n + 1))
          (applyCircuit (hLayer (n + 1)) ψ))) =
      fun b => if ∀ i, b i = false
        then -(applyCircuit (hLayer (n + 1)) ψ b)
        else applyCircuit (hLayer (n + 1)) ψ b := by
    rw [xAll_apply, diffusion_step_sem n, xAll_apply]
    funext b
    have hne : (fun i => !(!(b i))) = b := by
      funext i
      simp [Bool.not_not]
    simp only [hne, Bool.not_eq_true']
  rw [h3]
  have h4 : (fun b => if ∀ i, b i = false
      then -(applyCircuit (hLayer (n + 1)) ψ b)
      else applyCircuit (hLayer (n + 1)) ψ b) =
      fun b => applyCircuit (hLayer (n + 1)) ψ b +
        (-(2 * (invSqrt2 ^ (n + 1) * Finset.univ.sum ψ))) *
          allFalseState (n + 1) b := by
    funext b
    by_cases hb : ∀ i, b i = false
    · have hbeq : b = fun _ => false := funext fun i => hb i
      rw [if_pos hb, allFalseState]
      rw [if_pos hb, hbeq, hAll_at_allFalse ψ]
      ring
    · rw [if_neg hb, allFalseState]
      rw [if_neg hb]
      ring
  rw [h4, applyCircuit_linear, hAll_on_allFalse]
  have h5 : applyCircuit (hLayer (n + 1))
      (applyCircuit (hLayer (n + 1)) ψ) = ψ := hList_cancel _ ψ
  rw [h5]
  funext b
  rw [uniformState, meanAmp]
  linear_combination ((-2 : Q2) * Finset.univ.sum ψ) * invSqrt2_pow_mul_self (n + 1)

/-! Structure of the full Grover circuit. -/

theorem initialize_s_eq {nq : ℕ} (qc : Circuit nq) (l : List (Fin nq)) :
    initialize_s qc l = qc ++ l.map Gate.h := by
  induction l generalizing qc with
  | nil => simp [initialize_s]
  | cons q t ih =>
    show initialize_s (qc ++ [Gate.h q]) t = qc ++ (Gate.h q :: t.map Gate.h)
    rw [ih (qc ++ [Gate.h q]), List.append_assoc]
    rfl

theorem foldl_compose_replicate {α : Type} (A B : List α) (qc : List α) (k : ℕ) :
    (List.range k).foldl (fun acc _ => acc ++ A ++ B) qc =
      qc ++ (List.replicate k (A ++ B)).flatten := by
  induction k with
  | zero => simp
  | succ m ih =>
    rw [List.range_succ, List.foldl_append, ih, List.replicate_succ' m (A ++ B)]
    simp [List.append_assoc]

theorem create_grovers_circuit_eq (n : ℕ) (t : Fin (n + 1) → Bool) (k : ℕ) :
    create_grovers_circuit n t (k : ℤ) =
      hLayer (n + 1) ++
        (List.replicate k
          (create_oracle t ++ create_diffusion_operator n)).flatten ++
        measureLayer (n + 1) := by
  simp only [create_grovers_circuit, Int.toNat_natCast, initialize_s_eq,
    List.nil_append]
  have hfold := foldl_compose_replicate (create_oracle t)
    (create_diffusion_operator n) ((List.finRange (n + 1)).map Gate.h) k
  rw [hfold, hLayer, List.append_assoc]

/-! Evaluation of calculate_optimal_iterations. -/

theorem calc_ok {n : ℕ} {m : ℤ} (hm : 0 < m) :
    calculate_optimal_iterations n m = Except.ok
      (pyTrunc (Real.pi / 4 * Real.sqrt ((2 ^ n : ℝ) / (m : ℝ)))) := by
  rw [calculate_optimal_iterations, if_neg (by omega : ¬ m = 0),
    if_neg (by omega : ¬ m < 0)]

theorem pyTrunc_eq_floor {x : ℝ} (hx : 0 ≤ x) : pyTrunc x = ⌊x⌋ := if_pos hx

theorem sqrt2_lt : Real.sqrt 2 < 1.5 := by
  rw [Real.sqrt_lt' (by norm_num)]; norm_num

theorem sqrt2_gt : (1.4 : ℝ) < Real.sqrt 2 := by
  rw [Real.lt_sqrt (by norm_num)]; norm_num

theorem calcOpt_2_1 : calculate_optimal_iterations 2 1 = Except.ok 1 := by
  rw [calc_ok (by norm_num)]
  congr 1
  have h1 : ((2 : ℝ) ^ (2 : ℕ)) / ((1 : ℤ) : ℝ) = 4 := by norm_num
  rw [h1, show (4 : ℝ) = 2 ^ 2 by norm_num,
    Real.sqrt_sq (by norm_num : (0 : ℝ) ≤ 2)]
  rw [pyTrunc_eq_floor (by positivity), Int.floor_eq_iff]
  push_cast
  constructor
  · nlinarith [Real.pi_gt_three]
  · nlinarith [Real.pi_lt_d2]

theorem calcOpt_4_1 : calculate_optimal_iterations 4 1 = Except.ok 3 := by
  rw [calc_ok (by norm_num)]
  congr 1
  have h1 : ((2 : ℝ) ^ (4 : ℕ)) / ((1 : ℤ) : ℝ) = 16 := by norm_num
  rw [h1, show (16 : ℝ) = 4 ^ 2 by norm_num,
    Real.sqrt_sq (by norm_num : (0 : ℝ) ≤ 4)]
  rw [pyTrunc_eq_floor (by positivity), Int.floor_eq_iff]
  push_cast
  constructor
  · nlinarith [Real.pi_gt_three]
  · nlinarith [Real.pi_lt_d2]

theorem calcOpt_3_1 : calculate_optimal_iterations 3 1 = Except.ok 2 := by
  rw [calc_ok (by norm_num)]
  congr 1
  have h1 : ((2 : ℝ) ^ (3 : ℕ)) / ((1 : ℤ) : ℝ) = 8 := by norm_num
  rw [h1, show (8 : ℝ) = 2 ^ 2 * 2 by norm_num,
    Real.sqrt_mul (by positivity) 2, Real.sqrt_sq (by norm_num : (0 : ℝ) ≤ 2)]
  rw [pyTrunc_eq_floor (by positivity), Int.floor_eq_iff]
  push_cast
  constructor
  · nlinarith [Real.pi_gt_three, sqrt2_gt]
  · nlinarith [Real.pi_lt_d2, sqrt2_lt, sqrt2_gt]

theorem calcOpt_3_9 : calculate_optimal_iterations 3 9 = Except.ok 0 := by
  rw [calc_ok (by norm_num)]
  congr 1
  have h1 : ((2 : ℝ) ^ (3 : ℕ)) / ((9 : ℤ) : ℝ) = 8 / 9 := by norm_num
  rw [h1, Real.sqrt_div (by norm_num : (0 : ℝ) ≤ 8) 9,
    show (8 : ℝ) = 2 ^ 2 * 2 by norm_num, Real.sqrt_mul (by positivity) 2,
    Real.sqrt_sq (by norm_num : (0 : ℝ) ≤ 2),
    show (9 : ℝ) = 3 ^ 2 by norm_num, Real.sqrt_sq (by norm_num : (0 : ℝ) ≤ 3)]
  rw [pyTrunc_eq_floor (by positivity), Int.floor_eq_iff]
  push_cast
  constructor
  · positivity
  · nlinarith [Real.pi_lt_d2, sqrt2_lt, sqrt2_gt]

theorem sum_allFalseState (nq : ℕ) :
    Finset.univ.sum (fun b => allFalseState nq b) = 1 := by
  have hpt : ∀ b : Fin nq → Bool, allFalseState nq b =
      if b = (fun _ => false) then 1 else 0 := by
    intro b
    simp [allFalseState, funext_iff]
  calc Finset.univ.sum (fun b => allFalseState nq b)
      = Finset.univ.sum (fun b => if b = (fun _ => false) then (1 : Q2) else 0) :=
        Finset.sum_congr rfl (fun b _ => hpt b)
    _ = 1 := by rw [Finset.sum_ite_eq' Finset.univ (fun _ => false)
          (fun _ => (1 : Q2)), if_pos (Finset.mem_univ _)]

theorem meanAmp_allFalse (nq : ℕ) :
    meanAmp (allFalseState nq) = halfQ ^ nq := by
  rw [meanAmp, sum_allFalseState, mul_one]

/-! The claims. -/

/-- Claim C1 (refuted; bug in the code): create_oracle is documented to flip
the sign of the amplitude of exactly the target basis state.  On the main
demo target 101 (3 qubits) applied to the uniform superposition, the oracle
leaves the target amplitude at +invSqrt2 ^ 3 unflipped and instead negates
the amplitude of the non-target state 100, because its mcx; z; mcx block is
not a multi-controlled Z. -/
theorem oracle_misses_target_on_superposition :
    applyCircuit (create_oracle t101) (uniformState 3) t101 = invSqrt2 ^ 3 ∧
    applyCircuit (create_oracle t101) (uniformState 3)
      (fun i => if i = 0 then true else false) = -(invSqrt2 ^ 3) := by
  have hc : create_oracle t101 =
      [Gate.x 1, Gate.mcx [0, 1] 2, Gate.z 2, Gate.mcx [0, 1] 2, Gate.x 1] := by
    decide
  constructor
  · rw [hc]
    simp [uniformState, t101, flipBit_ne, List.all]
  · rw [hc]
    simp [uniformState, flipBit_ne, List.all]

/-- Claim C2 as stated is false: on 2 qubits with input the all-false basis
state, the claimed output 2 * mean - a has amplitude -1/2 at the all-false
assignment, while create_diffusion_operator produces +1/2 there. -/
theorem diffusion_not_two_mean_sub :
    applyCircuit (create_diffusion_operator 1) (allFalseState 2) ≠
      fun b => 2 * meanAmp (allFalseState 2) - allFalseState 2 b := by
  rw [diffusion_apply 1 (allFalseState 2)]
  intro h
  have hval := congrFun h (fun _ => false)
  rw [meanAmp_allFalse 2] at hval
  have hone : allFalseState 2 (fun _ => false) = 1 := by simp [allFalseState]
  rw [hone] at hval
  have ha := congrArg Q2.a hval
  simp [halfQ, pow_succ] at ha
  norm_num at ha

/-- Claim C2 amended: create_diffusion_operator sends the amplitude vector a
to the vector with entries a_i - 2 * mean(a), which is the negation (global
phase -1) of the claimed 2 * mean(a) - a_i. -/
theorem diffusion_reflects_about_mean_negated (n : ℕ) (ψ : QState (n + 1)) :
    applyCircuit (create_diffusion_operator n) ψ =
      fun b => ψ b - 2 * meanAmp ψ :=
  diffusion_apply n ψ

/-- Claim C3: for every qubit count n + 1, every target, and every iteration
count k, create_grovers_circuit is exactly a Hadamard on every qubit, then k
repetitions of the oracle followed by the diffusion operator, then a
measurement of every qubit into the equally indexed classical bit. -/
theorem grovers_circuit_structure (n : ℕ) (t : Fin (n + 1) → Bool) (k : ℕ) :
    create_grovers_circuit n t (k : ℤ) =
      hLayer (n + 1) ++
        (List.replicate k
          (create_oracle t ++ create_diffusion_operator n)).flatten ++
        measureLayer (n + 1) :=
  create_grovers_circuit_eq n t k

/-- Claim C4: for 1 ≤ m ≤ 2 ^ n, calculate_optimal_iterations returns the
non-negative integer floor((pi / 4) * sqrt(2 ^ n / m)); in particular it
returns 1 at (2, 1) and 3 at (4, 1). -/
theorem optimal_iterations_floor_formula (n : ℕ) (m : ℤ) (hn : 1 ≤ n)
    (h1 : 1 ≤ m) (h2 : m ≤ 2 ^ n) :
    calculate_optimal_iterations n m =
      Except.ok ⌊Real.pi / 4 * Real.sqrt ((2 ^ n : ℝ) / (m : ℝ))⌋ ∧
    0 ≤ ⌊Real.pi / 4 * Real.sqrt ((2 ^ n : ℝ) / (m : ℝ))⌋ ∧
    calculate_optimal_iterations 2 1 = Except.ok 1 ∧
    calculate_optimal_iterations 4 1 = Except.ok 3 := by
  refine ⟨?_, ?_, calcOpt_2_1, calcOpt_4_1⟩
  · rw [calc_ok (by omega), pyTrunc_eq_floor (by positivity)]
  · exact Int.floor_nonneg.mpr (by positivity)

/-- Witness for claim C4 at the concrete input (2, 1). -/
theorem optimal_iterations_floor_formula_witness :
    calculate_optimal_iterations 2 1 = Except.ok 1 :=
  (optimal_iterations_floor_formula 2 1 (by norm_num) (by norm_num)
    (by norm_num)).2.2.1

/-- Claim C5 is false for solution counts above 2 ^ n: with 3 qubits and 9
claimed solutions (exceeding 8), calculate_optimal_iterations raises no
error at all and silently returns 0. -/
theorem optimal_iterations_accepts_excess_solutions :
    calculate_optimal_iterations 3 9 = Except.ok 0 :=
  calcOpt_3_9

/-- Claim C5 amended: non-positive solution counts do raise (a division by
zero at m = 0, since 2 ^ n / 0 divides by zero, and a math domain error for
m < 0, since sqrt receives a negative argument), but a solution count above
2 ^ n is silently accepted: at (3, 9) the function returns 0. -/
theorem optimal_iterations_error_cases (n : ℕ) (m : ℤ) (hm : m ≤ 0) :
    calculate_optimal_iterations n m =
      Except.error (if m = 0 then PyErr.zeroDivisionError
        else PyErr.mathDomainError) ∧
    calculate_optimal_iterations 3 0 = Except.error PyErr.zeroDivisionError ∧
    calculate_optimal_iterations 3 9 = Except.ok 0 := by
  refine ⟨?_, ?_, calcOpt_3_9⟩
  · by_cases h0 : m = 0
    · subst h0
      rw [calculate_optimal_iterations]
      simp
    · rw [calculate_optimal_iterations, if_neg h0,
        if_pos (by omega : m < 0), if_neg h0]
  · rw [calculate_optimal_iterations]
    simp

/-- Witness for the amended claim C5 at the concrete input (3, -1). -/
theorem optimal_iterations_error_cases_witness :
    calculate_optimal_iterations 3 (-1) = Except.error PyErr.mathDomainError := by
  have h := (optimal_iterations_error_cases 3 (-1) (by norm_num)).1
  simpa using h

/-- Claim C6 is false: create_grovers_circuit silently accepts iteration
counts 0 and -1 (no error is raised); the returned circuit is just the
Hadamard layer followed by measurement, with no oracle or diffusion pass. -/
theorem grovers_accepts_zero_iterations :
    create_grovers_circuit 1 (fun _ => true) 0 = hLayer 2 ++ measureLayer 2 ∧
    create_grovers_circuit 1 (fun _ => true) (-1) =
      hLayer 2 ++ measureLayer 2 := by
  constructor <;> decide

/-- Claim C6 amended: every iteration count k ≤ 0 is silently accepted; the
loop body runs zero times and the circuit consists of the Hadamard layer and
the measurement layer only. -/
theorem grovers_nonpositive_iterations_silent (n : ℕ) (t : Fin (n + 1) → Bool)
    (k : ℤ) (hk : k ≤ 0) :
    create_grovers_circuit n t k = hLayer (n + 1) ++ measureLayer (n + 1) := by
  simp only [create_grovers_circuit, Int.toNat_of_nonpos hk, List.range_zero,
    List.foldl_nil, initialize_s_eq, List.nil_append]
  rw [hLayer]

/-- Witness for the amended claim C6 at the concrete input (1 qubit, -2). -/
theorem grovers_nonpositive_iterations_silent_witness :
    create_grovers_circuit 0 (fun _ => true) (-2) =
      hLayer 1 ++ measureLayer 1 :=
  grovers_nonpositive_iterations_silent 0 (fun _ => true) (-2) (by norm_num)

/-- Claim C7 is false: with 3 qubits, calculate_optimal_iterations(3, 1) = 2,
but calling create_grovers_circuit without an explicit iteration count uses
its default value 1, producing a different circuit than 2 repetitions. -/
theorem grovers_default_differs_from_optimal :
    calculate_optimal_iterations 3 1 = Except.ok 2 ∧
    create_grovers_circuit_default 2 t101 ≠ create_grovers_circuit 2 t101 2 := by
  refine ⟨calcOpt_3_1, ?_⟩
  decide

/-- Claim C7 amended: the default iteration count of create_grovers_circuit
is the constant 1 independent of the qubit count, so the default circuit
always performs exactly one oracle-diffusion pass; this agrees with
calculate_optimal_iterations only where that value is 1, as at qubit
count 2. -/
theorem grovers_default_single_iteration (n : ℕ) (t : Fin (n + 1) → Bool) :
    create_grovers_circuit_default n t =
      hLayer (n + 1) ++ (create_oracle t ++ create_diffusion_operator n) ++
        measureLayer (n + 1) ∧
    calculate_optimal_iterations 2 1 = Except.ok 1 := by
  refine ⟨?_, calcOpt_2_1⟩
  have h := create_grovers_circuit_eq n t 1
  rw [create_grovers_circuit_default, show (1 : ℤ) = ((1 : ℕ) : ℤ) by norm_num,
    h]
  simp

/-- Claim C8 is false as stated: for a 1-qubit target the conditional block
built by create_oracle is mcx []; z; mcx [] (X, Z, X, since a zero-control
mcx is an unconditional X), which negates the amplitude of basis state 0
rather than acting as the plain phase flip z; the two disagree on the
all-false basis state. -/
theorem oracle_step_single_qubit_not_plain_z :
    applyCircuit (oracle_cond_step 0) (allFalseState 1) ≠
      applyCircuit [Gate.z 0] (allFalseState 1) := by
  have hc : oracle_cond_step 0 = [Gate.mcx [] 0, Gate.z 0, Gate.mcx [] 0] := by
    decide
  rw [hc]
  intro h
  have hval := congrFun h (fun _ => false)
  simp [allFalseState, List.all, Fin.forall_fin_one] at hval
  have ha := congrArg Q2.a hval
  simp at ha
  norm_num at ha

/-- Claim C8 amended: for a 1-qubit target the conditional block contains no
gate with a control qubit (its mcx gates have empty control lists), and its
operator is the negation of the plain phase flip z: it equals a plain phase
flip only up to the global phase -1. -/
theorem oracle_step_single_qubit_neg_z :
    (∀ ψ : QState 1, applyCircuit (oracle_cond_step 0) ψ =
      fun b => -(applyCircuit [Gate.z 0] ψ b)) ∧
    ∀ g ∈ oracle_cond_step 0, gateControls g = [] := by
  constructor
  · intro ψ
    have hc : oracle_cond_step 0 =
        [Gate.mcx [] 0, Gate.z 0, Gate.mcx [] 0] := by decide
    rw [hc]
    funext b
    cases hb : b 0 <;>
      simp [hb, List.all, flipBit_at, flipBit_flipBit]
  · decide

/-- Claim C9 is false at 3 qubits: the conditional block of the oracle and
the multi-controlled block of the diffusion operator are different gate
lists and act differently on the all-ones basis state. -/
theorem oracle_step_differs_from_diffusion_step :
    oracle_cond_step 2 ≠ diffusion_mcz_step 2 ∧
    applyCircuit (oracle_cond_step 2) (allTrueState 3) ≠
      applyCircuit (diffusion_mcz_step 2) (allTrueState 3) := by
  constructor
  · decide
  · rw [oracle_step_sem (by norm_num) (allTrueState 3),
      diffusion_step_sem 2 (allTrueState 3)]
    intro h
    have hval := congrFun h (fun _ => true)
    have hctrl : (mcxControls 2).all (fun _ => true) = true := by decide
    have hones : allTrueState 3 (fun _ => true) = 1 := by
      simp [allTrueState]
    simp only [hctrl, hones, if_pos rfl, if_pos (fun i => rfl)] at hval
    have ha := congrArg Q2.a hval
    simp at ha
    norm_num at ha

/-- Claim C9 amended: for every qubit count n + 1 with n ≥ 2 the two blocks
are inequivalent: the diffusion block implements the exact multi-controlled
Z (negating exactly the all-ones state) while the oracle block negates
exactly the states whose last qubit disagrees with the conjunction of the
others; on the all-ones basis state the oracle block acts as +1 and the
diffusion block as -1. -/
theorem oracle_diffusion_steps_characterized (n : ℕ) (hn : 2 ≤ n)
    (ψ : QState (n + 1)) :
    applyCircuit (diffusion_mcz_step n) ψ =
      (fun b => if ∀ i, b i = true then -(ψ b) else ψ b) ∧
    applyCircuit (oracle_cond_step n) ψ =
      (fun b => if (mcxControls n).all b
        then (if b (Fin.last n) then ψ b else -(ψ b))
        else (if b (Fin.last n) then -(ψ b) else ψ b)) ∧
    applyCircuit (oracle_cond_step n) (allTrueState (n + 1))
      (fun _ => true) = 1 ∧
    applyCircuit (diffusion_mcz_step n) (allTrueState (n + 1))
      (fun _ => true) = -1 := by
  have hne : n ≠ 1 := by omega
  have hctrl : (mcxControls n).all (fun _ => true) = true :=
    List.all_eq_true.mpr (fun i _ => rfl)
  have hones : allTrueState (n + 1) (fun _ => true) = 1 := by
    simp [allTrueState]
  refine ⟨diffusion_step_sem n ψ, oracle_step_sem hne ψ, ?_, ?_⟩
  · rw [oracle_step_sem hne (allTrueState (n + 1))]
    simp only [hctrl, hones, if_pos rfl, if_pos (fun i => rfl)]
    simp
  · rw [diffusion_step_sem n (allTrueState (n + 1))]
    simp only [hones, if_pos (fun i => rfl)]
    simp

/-- Witness for the amended claim C9 at 3 qubits on the all-true state. -/
theorem oracle_diffusion_steps_characterized_witness :
    applyCircuit (oracle_cond_step 2) (allTrueState 3) (fun _ => true) = 1 ∧
    applyCircuit (diffusion_mcz_step 2) (allTrueState 3) (fun _ => true) = -1 := by
  have h := oracle_diffusion_steps_characterized 2 (by norm_num) (allTrueState 3)
  exact ⟨h.2.2.1, h.2.2.2⟩

/-- Claim C10: the oracle composed with itself restores every amplitude of
every statevector (the composition is exactly the identity, hence the
identity up to global phase). -/
theorem oracle_self_inverse (n : ℕ) (t : Fin (n + 1) → Bool)
    (ψ : QState (n + 1)) :
    applyCircuit (create_oracle t ++ create_oracle t) ψ = ψ := by
  have hx : ∀ φ : QState (n + 1),
      applyCircuit (xLayerFor t) (applyCircuit (xLayerFor t) φ) = φ := by
    intro φ
    exact xList_cancel ((List.finRange (n + 1)).filter (fun q => t q = false)) φ
  have hs : ∀ φ : QState (n + 1),
      applyCircuit (oracle_cond_step n) (applyCircuit (oracle_cond_step n) φ)
        = φ := by
    intro φ
    by_cases hn : n = 1
    · subst hn
      rw [oracle_cond_step, dif_pos rfl]
      simp only [applyCircuit_cons, applyCircuit_nil]
      exact cz_cz_cancel _ _ φ
    · rw [oracle_cond_step, dif_neg hn]
      have hrev : ([Gate.mcx (mcxControls n) (Fin.last n), Gate.z (Fin.last n),
          Gate.mcx (mcxControls n) (Fin.last n)] : Circuit (n + 1)).reverse =
          [Gate.mcx (mcxControls n) (Fin.last n), Gate.z (Fin.last n),
          Gate.mcx (mcxControls n) (Fin.last n)] := rfl
      have hinv : ∀ g ∈ ([Gate.mcx (mcxControls n) (Fin.last n),
          Gate.z (Fin.last n), Gate.mcx (mcxControls n) (Fin.last n)] :
            Circuit (n + 1)), ∀ χ, applyGate g (applyGate g χ) = χ := by
        intro g hg χ
        simp only [List.mem_cons, List.not_mem_nil, or_false] at hg
        rcases hg with rfl | rfl | rfl
        · exact mcx_mcx_cancel (mcxControls_not_mem_last n) χ
        · exact z_z_cancel _ χ
        · exact mcx_mcx_cancel (mcxControls_not_mem_last n) χ
      have h2 := applyCircuit_reverse_cancel _ hinv φ
      rwa [hrev] at h2
  rw [applyCircuit_append, create_oracle, applyCircuit_append,
    applyCircuit_append, applyCircuit_append, applyCircuit_append]
  rw [hx (applyCircuit (oracle_cond_step n)
    (applyCircuit (xLayerFor t) ψ))]
  rw [hs (applyCircuit (xLayerFor t) ψ)]
  exact hx ψ
